import Mathlib

/-!
# Verification of the `store` component of LinqCod/proglog

Shallow embedding of `internal/log/store.go`: an append-only record store
over a single file, with a buffered writer, a `uint64` size cursor, and
positional reads. Bytes are modelled as `Nat` values `< 256`; the file and
the write buffer are `List Nat`; the `uint64` cursor is a `Nat` reduced
modulo `2^64` where Go performs `uint64` arithmetic. I/O fallibility
(buffer writes, flushes, stats, closes can fail in Go) is modelled by
explicit Boolean outcome parameters: `true` means the underlying syscall
succeeds, `false` that it reports an error.
-/

namespace Proglog

/-- The `uint64` modulus. -/
def u64Mod : Nat := 2 ^ 64

/-- Propagated I/O failures (`error` values in Go). The component performs
no semantic validation, so every failure is an opaque I/O error. -/
inductive IOErr where
  | statFailed
  | writeFailed
  | flushFailed
  | readFailed
  | closeFailed
  deriving Repr, DecidableEq

/-- `enc.PutUint64`/`binary.Write(_, binary.BigEndian, n : uint64)`:
the 8-byte big-endian encoding of `n % 2^64`, most significant byte
first. `dataLengthWeightInBytes = 8` in the source. -/
def putUint64 (n : Nat) : List Nat :=
  [n / 2 ^ 56 % 256, n / 2 ^ 48 % 256, n / 2 ^ 40 % 256, n / 2 ^ 32 % 256,
   n / 2 ^ 24 % 256, n / 2 ^ 16 % 256, n / 2 ^ 8 % 256, n % 256]

/-- `enc.Uint64`: decode 8 big-endian bytes as an unsigned 64-bit value.
(Go panics when fewer than 8 bytes are supplied; the store only ever calls
it on an 8-byte slice, so the default branch is irrelevant.) -/
def getUint64 (b : List Nat) : Nat :=
  match b with
  | [b0, b1, b2, b3, b4, b5, b6, b7] =>
      ((((((b0 * 256 + b1) * 256 + b2) * 256 + b3) * 256 + b4) * 256 + b5)
        * 256 + b6) * 256 + b7
  | _ => 0

/-- The Go `store` struct: the flushed on-disk bytes (`*os.File`), the
pending bytes of the `bufio.Writer`, and the `fileSize` cursor. The
mutex serializes all public operations, so each operation is modelled as
one atomic state transition. -/
structure store where
  file : List Nat
  buffer : List Nat
  fileSize : Nat
  deriving Repr, DecidableEq

/-- `newStore(file)`: stat the file and initialize the cursor from the
on-disk length, with an empty write buffer. `statOk = false` models
`os.Stat` failing, in which case Go returns `(nil, err)`. -/
def newStore (file : List Nat) (statOk : Bool) : Except IOErr store :=
  if statOk then
    .ok { file := file, buffer := [], fileSize := file.length }
  else
    .error .statFailed

/-- The `(n, pos, err)` triple returned by `store.Append`. -/
structure AppendResult where
  n : Nat
  pos : Nat
  err : Option IOErr
  deriving Repr, DecidableEq

/-- `store.Append(data)`: under the lock, record `pos := s.fileSize`,
write the 8-byte big-endian length of `data` into the buffer, then the
payload, and advance the cursor by `w = len(data) + 8` (uint64 addition).
`headerOk`/`payloadOk` model the two buffer writes succeeding or failing:
on a header-write failure nothing is appended; on a payload-write failure
the dangling header is already in the buffer. Both error paths return
`(0, 0, err)` and leave the cursor untouched. -/
def store.Append (s : store) (data : List Nat) (headerOk payloadOk : Bool) :
    AppendResult × store :=
  let pos := s.fileSize
  if headerOk then
    let s1 : store := { s with buffer := s.buffer ++ putUint64 data.length }
    if payloadOk then
      let w := data.length + 8
      ({ n := w, pos := pos, err := none },
       { s1 with buffer := s1.buffer ++ data,
                 fileSize := (s1.fileSize + w) % u64Mod })
    else
      ({ n := 0, pos := 0, err := some .writeFailed }, s1)
  else
    ({ n := 0, pos := 0, err := some .writeFailed }, s)

/-- `bufio.Writer.Flush`: move every buffered byte to the end of the
file. On failure (`flushOk = false`) the error is propagated. -/
def store.flush (s : store) (flushOk : Bool) : Except IOErr store :=
  if flushOk then
    .ok { s with file := s.file ++ s.buffer, buffer := [] }
  else
    .error .flushFailed

/-- `os.File.ReadAt(b, off)` with `len(b) = n`: read exactly `n` bytes
starting at byte `off` of the flushed file; a read past end-of-file is an
error (short positional reads surface as errors in Go). -/
def fileReadAt (file : List Nat) (n : Nat) (off : Nat) :
    Except IOErr (List Nat) :=
  if off + n ≤ file.length then
    .ok ((file.drop off).take n)
  else
    .error .readFailed

/-- `store.Read(pos)`: under the lock, flush the buffer, read the 8-byte
length header at `pos`, decode it big-endian, then read that many payload
bytes at `pos + 8`. Each failing step propagates its error; the resulting
store state is returned alongside (Go mutates `s` in place). -/
def store.Read (s : store) (pos : Nat) (flushOk : Bool) :
    Except IOErr (List Nat) × store :=
  match s.flush flushOk with
  | .error e => (.error e, s)
  | .ok s1 =>
    match fileReadAt s1.file 8 pos with
    | .error e => (.error e, s1)
    | .ok lengthBytes =>
      match fileReadAt s1.file (getUint64 lengthBytes) (pos + 8) with
      | .error e => (.error e, s1)
      | .ok b => (.ok b, s1)

/-- `store.ReadAt(data, offset)` with `len(data) = n`: under the lock,
flush the buffer, then read `n` raw bytes at `offset`, returning the
bytes read (the Go call also returns their count, which on success is
exactly `n`). -/
def store.ReadAt (s : store) (n : Nat) (offset : Nat) (flushOk : Bool) :
    Except IOErr (List Nat) × store :=
  match s.flush flushOk with
  | .error e => (.error e, s)
  | .ok s1 =>
    match fileReadAt s1.file n offset with
    | .error e => (.error e, s1)
    | .ok b => (.ok b, s1)

/-- `store.Close`: under the lock, flush the buffer, then close the file.
On success the final on-disk content is returned (the bytes that persist
after the handle is released). -/
def store.Close (s : store) (flushOk closeOk : Bool) :
    Except IOErr (List Nat) :=
  match s.flush flushOk with
  | .error e => .error e
  | .ok s1 => if closeOk then .ok s1.file else .error .closeFailed

/-- A store over an empty file with nothing buffered, as produced by
`newStore` on a freshly created temp file. -/
def emptyStore : store := { file := [], buffer := [], fileSize := 0 }

/-- The wire encoding one `Append(d)` contributes: the 8-byte big-endian
length of `d` immediately followed by `d`. -/
def encodeRecord (d : List Nat) : List Nat :=
  putUint64 d.length ++ d

/-- Back-to-back concatenation of record encodings, the on-disk format. -/
def encodeAll (ds : List (List Nat)) : List Nat :=
  (ds.map encodeRecord).flatten

/-- Total bytes consumed by a sequence of appends. -/
def sumBytes (ds : List (List Nat)) : Nat :=
  (ds.map (fun d => 8 + d.length)).sum

/-- Sequentially append each payload of `ds` (all I/O succeeding),
collecting each call's `(n, pos)` and threading the store state: the
serialization order the store's mutex imposes on concurrent callers. -/
def appendSeq (s : store) (ds : List (List Nat)) :
    List (Nat × Nat) × store :=
  match ds with
  | [] => ([], s)
  | d :: rest =>
    match s.Append d true true with
    | (r, s1) =>
      match r.err with
      | none =>
        let pr := appendSeq s1 rest
        ((r.n, r.pos) :: pr.1, pr.2)
      | some _ => ([], s1)

/-- The bytes of the test payload `"hello world log"`. -/
def testData : List Nat := "hello world log".toList.map Char.toNat

/-- The `(n, pos)` results `appendSeq` produces when every append
succeeds, starting from cursor value `base`. -/
def expectedResults (base : Nat) (ds : List (List Nat)) :
    List (Nat × Nat) :=
  match ds with
  | [] => []
  | d :: rest => (d.length + 8, base) :: expectedResults (base + (d.length + 8)) rest

theorem putUint64_length (n : Nat) : (putUint64 n).length = 8 := rfl

theorem getUint64_putUint64 (n : Nat) (h : n < u64Mod) :
    getUint64 (putUint64 n) = n := by
  simp only [putUint64, getUint64, u64Mod] at *
  omega

theorem encodeRecord_length (d : List Nat) :
    (encodeRecord d).length = 8 + d.length := by
  simp [encodeRecord, putUint64_length]

theorem fileReadAt_middle (pre mid rest : List Nat) :
    fileReadAt (pre ++ (mid ++ rest)) mid.length pre.length = .ok mid := by
  have hlen : pre.length + mid.length ≤ (pre ++ (mid ++ rest)).length := by
    simp [List.length_append]
  simp only [fileReadAt, if_pos hlen]
  rw [List.drop_left, List.take_left]

theorem Append_ok (s : store) (d : List Nat) :
    s.Append d true true =
      ({ n := d.length + 8, pos := s.fileSize, err := none },
       { file := s.file, buffer := s.buffer ++ encodeRecord d,
         fileSize := (s.fileSize + (d.length + 8)) % u64Mod }) := by
  simp [store.Append, encodeRecord]

/-- If the logical content (flushed file followed by buffer) carries the
encoding of record `d` at byte offset `pre.length`, then `Read` at that
offset returns exactly `d`. -/
theorem read_of_record_at (s : store) (pre rest d : List Nat)
    (hsplit : s.file ++ s.buffer = pre ++ (encodeRecord d ++ rest))
    (hd : d.length < u64Mod) :
    (s.Read pre.length true).1 = .ok d := by
  have hflush : s.flush true = .ok { s with file := s.file ++ s.buffer, buffer := [] } := rfl
  have hfile : (s.file ++ s.buffer) = pre ++ (putUint64 d.length ++ (d ++ rest)) := by
    simpa [encodeRecord, List.append_assoc] using hsplit
  have h1 : fileReadAt (s.file ++ s.buffer) 8 pre.length = .ok (putUint64 d.length) := by
    rw [hfile]
    have := fileReadAt_middle pre (putUint64 d.length) (d ++ rest)
    rwa [putUint64_length] at this
  have h2 : fileReadAt (s.file ++ s.buffer) d.length (pre.length + 8) = .ok d := by
    have := fileReadAt_middle (pre ++ putUint64 d.length) d rest
    rw [List.length_append, putUint64_length, List.append_assoc] at this
    rwa [hfile]
  simp only [store.Read, hflush, h1, h2, getUint64_putUint64 d.length hd]

theorem sumBytes_cons (d : List Nat) (rest : List (List Nat)) :
    sumBytes (d :: rest) = (8 + d.length) + sumBytes rest := by
  simp [sumBytes]

theorem encodeAll_cons (d : List Nat) (rest : List (List Nat)) :
    encodeAll (d :: rest) = encodeRecord d ++ encodeAll rest := by
  simp [encodeAll]

theorem encodeAll_length (ds : List (List Nat)) :
    (encodeAll ds).length = sumBytes ds := by
  induction ds with
  | nil => rfl
  | cons d rest ih =>
    rw [encodeAll_cons, sumBytes_cons, List.length_append, encodeRecord_length, ih]

/-- When the cursor never wraps, a sequence of all-successful appends
returns the expected `(n, pos)` pairs, deposits the concatenated record
encodings in the buffer, and advances the cursor by their total length. -/
theorem appendSeq_spec (ds : List (List Nat)) : ∀ s : store,
    s.fileSize + sumBytes ds < u64Mod →
    appendSeq s ds = (expectedResults s.fileSize ds,
      { file := s.file, buffer := s.buffer ++ encodeAll ds,
        fileSize := s.fileSize + sumBytes ds }) := by
  induction ds with
  | nil =>
    intro s h
    simp [appendSeq, expectedResults, encodeAll, sumBytes]
  | cons d rest ih =>
    intro s h
    rw [sumBytes_cons] at h
    have hmod : (s.fileSize + (d.length + 8)) % u64Mod = s.fileSize + (d.length + 8) := by
      apply Nat.mod_eq_of_lt
      omega
    have hrec := ih { file := s.file, buffer := s.buffer ++ encodeRecord d,
                      fileSize := s.fileSize + (d.length + 8) } (by simpa using by omega)
    have harith : s.fileSize + (d.length + 8) + sumBytes rest
        = s.fileSize + (8 + d.length + sumBytes rest) := by omega
    simp only [appendSeq, Append_ok, hmod, hrec, expectedResults, sumBytes_cons,
      encodeAll_cons, List.append_assoc, harith]

theorem expectedResults_length (ds : List (List Nat)) (base : Nat) :
    (expectedResults base ds).length = ds.length := by
  induction ds generalizing base with
  | nil => rfl
  | cons d rest ih => simp [expectedResults, ih]

theorem expectedResults_get (ds : List (List Nat)) : ∀ (base i : Nat)
    (hi : i < (expectedResults base ds).length) (hd : i < ds.length),
    (expectedResults base ds).get ⟨i, hi⟩
      = ((ds.get ⟨i, hd⟩).length + 8, base + sumBytes (ds.take i)) := by
  induction ds with
  | nil => intro base i hi hd; exact absurd hd (by simp)
  | cons d rest ih =>
    intro base i hi hd
    cases i with
    | zero => simp [expectedResults, sumBytes]
    | succ j =>
      have hj : j < (expectedResults (base + (d.length + 8)) rest).length := by
        simpa [expectedResults] using hi
      have hjd : j < rest.length := by simpa using hd
      have := ih (base + (d.length + 8)) j hj hjd
      simp only [expectedResults, List.get_cons_succ, this, List.take_succ_cons,
        List.get_cons_succ, sumBytes_cons, Prod.mk.injEq]
      exact ⟨trivial, by omega⟩

theorem encodeAll_split (ds : List (List Nat)) : ∀ (i : Nat) (hd : i < ds.length),
    ∃ rest, encodeAll ds
      = encodeAll (ds.take i) ++ (encodeRecord (ds.get ⟨i, hd⟩) ++ rest) := by
  induction ds with
  | nil => intro i hd; exact absurd hd (by simp)
  | cons d tail ih =>
    intro i hd
    cases i with
    | zero =>
      exact ⟨encodeAll tail, by simp [encodeAll_cons, encodeAll]⟩
    | succ j =>
      have hjd : j < tail.length := by simpa using hd
      obtain ⟨rest, hrest⟩ := ih j hjd
      refine ⟨rest, ?_⟩
      simp only [List.take_succ_cons, encodeAll_cons, List.get_cons_succ, hrest,
        List.append_assoc]

theorem appendSeq_content (ds : List (List Nat)) : ∀ s : store,
    (appendSeq s ds).2.file = s.file ∧
    (appendSeq s ds).2.buffer = s.buffer ++ encodeAll ds := by
  induction ds with
  | nil => intro s; simp [appendSeq, encodeAll]
  | cons d rest ih =>
    intro s
    have := ih { file := s.file, buffer := s.buffer ++ encodeRecord d,
                 fileSize := (s.fileSize + (d.length + 8)) % u64Mod }
    simp only [appendSeq, Append_ok] at *
    simp [this.1, this.2, encodeAll_cons]

/-- C1: if Append(d) succeeds returning start position p, a subsequent
Read(p) succeeds and returns exactly d (Read flushes first). -/
theorem C1_append_read_roundtrip (s : store) (d : List Nat)
    (hwf : s.fileSize = s.file.length + s.buffer.length)
    (hd : d.length < u64Mod) :
    ∃ n p s1, s.Append d true true = ({ n := n, pos := p, err := none }, s1) ∧
      (s1.Read p true).1 = .ok d := by
  refine ⟨d.length + 8, s.fileSize, _, Append_ok s d, ?_⟩
  have hsplit : s.file ++ (s.buffer ++ encodeRecord d)
      = (s.file ++ s.buffer) ++ (encodeRecord d ++ []) := by simp
  have := read_of_record_at
    { file := s.file, buffer := s.buffer ++ encodeRecord d,
      fileSize := (s.fileSize + (d.length + 8)) % u64Mod }
    (s.file ++ s.buffer) [] d hsplit hd
  rwa [List.length_append, ← hwf] at this

theorem C1_witness : ∃ n p s1,
    emptyStore.Append [42] true true = ({ n := n, pos := p, err := none }, s1) ∧
      (s1.Read p true).1 = .ok [42] :=
  C1_append_read_roundtrip emptyStore [42] (by decide) (by decide)

/-- C3: an Append that returns an error never advances the size cursor,
whichever of the two buffer writes failed. -/
theorem C3_error_preserves_cursor (s : store) (data : List Nat)
    (headerOk payloadOk : Bool) (e : IOErr)
    (he : (s.Append data headerOk payloadOk).1.err = some e) :
    (s.Append data headerOk payloadOk).2.fileSize = s.fileSize := by
  cases headerOk <;> cases payloadOk <;> simp_all [store.Append]

theorem C3_witness :
    (emptyStore.Append [1, 2] true false).1.err = some .writeFailed ∧
    (emptyStore.Append [1, 2] true false).2.fileSize = emptyStore.fileSize :=
  ⟨by decide, C3_error_preserves_cursor emptyStore [1, 2] true false .writeFailed (by decide)⟩

/-- C9: a failed Append reports n = 0 and pos = 0 alongside the error. -/
theorem C9_zeroed_on_error (s : store) (data : List Nat)
    (headerOk payloadOk : Bool)
    (he : (s.Append data headerOk payloadOk).1.err.isSome) :
    (s.Append data headerOk payloadOk).1.n = 0 ∧
    (s.Append data headerOk payloadOk).1.pos = 0 := by
  cases headerOk <;> cases payloadOk <;> simp_all [store.Append]

theorem C9_witness :
    (emptyStore.Append [5] false true).1.err.isSome = true ∧
    (emptyStore.Append [5] false true).1.n = 0 ∧
    (emptyStore.Append [5] false true).1.pos = 0 :=
  ⟨by decide, C9_zeroed_on_error emptyStore [5] false true (by decide)⟩

/-- C10: appending the empty byte sequence succeeds with n = 8 at the
current position p, and Read(p) then returns the empty sequence. -/
theorem C10_empty_record (s : store)
    (hwf : s.fileSize = s.file.length + s.buffer.length) :
    ∃ s1, s.Append [] true true = ({ n := 8, pos := s.fileSize, err := none }, s1) ∧
      (s1.Read s.fileSize true).1 = .ok [] := by
  refine ⟨_, Append_ok s [], ?_⟩
  have hsplit : s.file ++ (s.buffer ++ encodeRecord [])
      = (s.file ++ s.buffer) ++ (encodeRecord ([] : List Nat) ++ []) := by simp
  have := read_of_record_at
    { file := s.file, buffer := s.buffer ++ encodeRecord [],
      fileSize := (s.fileSize + (List.length ([] : List Nat) + 8)) % u64Mod }
    (s.file ++ s.buffer) [] [] hsplit (by decide)
  rwa [List.length_append, ← hwf] at this

theorem C10_witness : ∃ s1,
    emptyStore.Append [] true true = ({ n := 8, pos := 0, err := none }, s1) ∧
      (s1.Read 0 true).1 = .ok [] :=
  C10_empty_record emptyStore (by decide)

/-- C4: each successful Append contributes exactly the 8-byte big-endian
length followed by the payload, and flushing after any sequence of
successful Appends from an empty file leaves exactly the back-to-back
concatenation of the record encodings, from byte 0, with nothing else. -/
theorem C4_wire_format (s : store) (d : List Nat) (ds : List (List Nat)) :
    ((s.Append d true true).2.buffer = s.buffer ++ (putUint64 d.length ++ d) ∧
     (s.Append d true true).2.file = s.file) ∧
    ∃ s1, (appendSeq emptyStore ds).2.flush true = .ok s1 ∧
      s1.file = (ds.map (fun x => putUint64 x.length ++ x)).flatten := by
  refine ⟨⟨by simp [Append_ok, encodeRecord], by simp [Append_ok]⟩, ?_⟩
  have h := appendSeq_content ds emptyStore
  refine ⟨_, rfl, ?_⟩
  show (appendSeq emptyStore ds).2.file ++ (appendSeq emptyStore ds).2.buffer = _
  rw [h.1, h.2]
  simp only [emptyStore, List.nil_append]
  rfl

theorem expectedResults_replicate_get (k : Nat) (L : List Nat) :
    ∀ (i base : Nat), i < k →
    (expectedResults base (List.replicate k L))[i]?
      = some (L.length + 8, base + i * (8 + L.length)) := by
  induction k with
  | zero => intro i base h; omega
  | succ j ih =>
    intro i base h
    rw [List.replicate_succ]
    cases i with
    | zero => simp [expectedResults]
    | succ m =>
      show (expectedResults base (L :: List.replicate j L))[m + 1]? = _
      simp only [expectedResults, List.getElem?_cons_succ]
      rw [ih m (base + (L.length + 8)) (by omega)]
      have : base + (L.length + 8) + m * (8 + L.length)
          = base + (m + 1) * (8 + L.length) := by ring
      rw [this]

/-- The spec example in C2 is wrong: the payload "hello world log" has 15
bytes, not 16, so appending it three times yields positions 0, 23, 46 and
a final size cursor of 69, not 0, 24, 48 and 72. -/
theorem C2_counterexample :
    testData.length = 15 ∧ ¬ testData.length = 16 ∧
    (appendSeq emptyStore [testData, testData, testData]).1.map Prod.snd
      = [0, 23, 46] ∧
    ¬ (appendSeq emptyStore [testData, testData, testData]).1.map Prod.snd
      = [0, 24, 48] ∧
    (appendSeq emptyStore [testData, testData, testData]).2.fileSize = 69 ∧
    ¬ (appendSeq emptyStore [testData, testData, testData]).2.fileSize = 72 := by
  decide

/-- C2 (amended): successful appends return bytesWritten = 8 + len(data)
and the pre-call cursor as position, advance the cursor by bytesWritten
(absent uint64 wrap), successive positions are strictly increasing with
each equal to the previous position plus the previous bytesWritten; with
constant payload length the 0-indexed i-th position is i * (8 + L); and
the 15-byte payload "hello world log" appended three times yields
positions 0, 23, 46 and a final cursor of 69. -/
theorem C2_amended_positions (s : store) (d d2 : List Nat) (k i : Nat)
    (L : List Nat)
    (hov : s.fileSize + (d.length + 8) < u64Mod)
    (hrep : sumBytes (List.replicate k L) < u64Mod)
    (hik : i < k) :
    ((s.Append d true true).1
        = { n := d.length + 8, pos := s.fileSize, err := none } ∧
     (s.Append d true true).2.fileSize = s.fileSize + (d.length + 8) ∧
     (s.Append d true true).1.pos < (s.Append d true true).2.fileSize ∧
     ((s.Append d true true).2.Append d2 true true).1.pos
        = (s.Append d true true).1.pos + (s.Append d true true).1.n) ∧
    (appendSeq emptyStore (List.replicate k L)).1[i]?
        = some (L.length + 8, i * (8 + L.length)) ∧
    ((appendSeq emptyStore [testData, testData, testData]).1.map Prod.snd
        = [0, 23, 46] ∧
     (appendSeq emptyStore [testData, testData, testData]).2.fileSize = 69) := by
  have hmod : (s.fileSize + (d.length + 8)) % u64Mod = s.fileSize + (d.length + 8) :=
    Nat.mod_eq_of_lt hov
  refine ⟨⟨?_, ?_, ?_, ?_⟩, ?_, by decide, by decide⟩
  · rw [Append_ok]
  · rw [Append_ok]; exact hmod
  · rw [Append_ok]; simp only [hmod]; omega
  · rw [Append_ok, Append_ok]; simp only [hmod]
  · have hseq := appendSeq_spec (List.replicate k L) emptyStore
      (by simpa [emptyStore] using hrep)
    rw [hseq]
    have := expectedResults_replicate_get k L i 0 hik
    simpa [emptyStore] using this


theorem C2_amended_witness :
    (emptyStore.Append [1, 2] true true).1
      = { n := [1, 2].length + 8, pos := emptyStore.fileSize, err := none } ∧
    (appendSeq emptyStore (List.replicate 2 [9])).1[1]?
      = some ([9].length + 8, 1 * (8 + [9].length)) :=
  ⟨(C2_amended_positions emptyStore [1, 2] [3] 2 1 [9]
      (by decide) (by decide) (by decide)).1.1,
   (C2_amended_positions emptyStore [1, 2] [3] 2 1 [9]
      (by decide) (by decide) (by decide)).2.1⟩

theorem Read_state (s : store) (pos : Nat) :
    (s.Read pos true).2 = { s with file := s.file ++ s.buffer, buffer := [] } := by
  cases hf : fileReadAt (s.file ++ s.buffer) 8 pos with
  | error e => simp [store.Read, store.flush, hf]
  | ok lb =>
    cases hg : fileReadAt (s.file ++ s.buffer) (getUint64 lb) (pos + 8) <;>
      simp [store.Read, store.flush, hf, hg]

theorem ReadAt_state (s : store) (n off : Nat) :
    (s.ReadAt n off true).2 = { s with file := s.file ++ s.buffer, buffer := [] } := by
  cases hf : fileReadAt (s.file ++ s.buffer) n off <;>
    simp [store.ReadAt, store.flush, hf]

theorem ReadAt_fst (s : store) (n off : Nat) :
    (s.ReadAt n off true).1 = fileReadAt (s.file ++ s.buffer) n off := by
  cases hf : fileReadAt (s.file ++ s.buffer) n off <;>
    simp [store.ReadAt, store.flush, hf]

theorem Read_fst (s : store) (pos : Nat) :
    (s.Read pos true).1 =
      match fileReadAt (s.file ++ s.buffer) 8 pos with
      | .error e => .error e
      | .ok lb =>
        match fileReadAt (s.file ++ s.buffer) (getUint64 lb) (pos + 8) with
        | .error e => .error e
        | .ok b => .ok b := by
  cases hf : fileReadAt (s.file ++ s.buffer) 8 pos with
  | error e => simp [store.Read, store.flush, hf]
  | ok lb =>
    cases hg : fileReadAt (s.file ++ s.buffer) (getUint64 lb) (pos + 8) <;>
      simp [store.Read, store.flush, hf, hg]

/-- C7: Read and ReadAt preserve the size cursor and the logical byte
content (the flush only moves buffered bytes into the file), whatever the
flush outcome; and Append, on every path, only extends the logical
content, leaving every byte below the pre-call cursor in place. -/
theorem C7_frame (s : store) (pos n off : Nat) (d : List Nat)
    (f g headerOk payloadOk : Bool) :
    ((s.Read pos f).2.fileSize = s.fileSize ∧
     (s.Read pos f).2.file ++ (s.Read pos f).2.buffer = s.file ++ s.buffer) ∧
    ((s.ReadAt n off g).2.fileSize = s.fileSize ∧
     (s.ReadAt n off g).2.file ++ (s.ReadAt n off g).2.buffer
        = s.file ++ s.buffer) ∧
    (∃ ext, (s.Append d headerOk payloadOk).2.file
              ++ (s.Append d headerOk payloadOk).2.buffer
            = (s.file ++ s.buffer) ++ ext) := by
  refine ⟨?_, ?_, ?_⟩
  · cases f with
    | false => simp [store.Read, store.flush]
    | true => rw [Read_state]; simp
  · cases g with
    | false => simp [store.ReadAt, store.flush]
    | true => rw [ReadAt_state]; simp
  · cases headerOk with
    | false => exact ⟨[], by simp [store.Append]⟩
    | true =>
      cases payloadOk with
      | false => exact ⟨putUint64 d.length, by simp [store.Append]⟩
      | true => exact ⟨encodeRecord d, by simp [Append_ok, encodeRecord]⟩

/-- C6: Read(p) returns exactly the bytes obtained by the raw composite:
ReadAt of 8 bytes at p, big-endian decoding of those bytes as the length,
then ReadAt of that many bytes at p + 8. -/
theorem C6_read_readAt_equiv (s : store) (p : Nat) (lb b : List Nat)
    (h1 : (s.ReadAt 8 p true).1 = .ok lb)
    (h2 : (((s.ReadAt 8 p true).2).ReadAt (getUint64 lb) (p + 8) true).1 = .ok b) :
    (s.Read p true).1 = .ok b := by
  rw [ReadAt_fst] at h1
  rw [ReadAt_fst, ReadAt_state] at h2
  simp only [List.append_nil] at h2
  rw [Read_fst, h1]
  simp only [h2]

theorem C6_witness :
    ((emptyStore.Append [7] true true).2.ReadAt 8 0 true).1 = .ok (putUint64 1) ∧
    ((((emptyStore.Append [7] true true).2.ReadAt 8 0 true).2).ReadAt
        (getUint64 (putUint64 1)) (0 + 8) true).1 = .ok [7] ∧
    ((emptyStore.Append [7] true true).2.Read 0 true).1 = .ok [7] :=
  ⟨by rfl, by rfl,
   C6_read_readAt_equiv (emptyStore.Append [7] true true).2 0 (putUint64 1) [7]
     (by rfl) (by rfl)⟩

theorem Read_content_fst (s t : store) (pos : Nat)
    (h : s.file ++ s.buffer = t.file ++ t.buffer) :
    (s.Read pos true).1 = (t.Read pos true).1 := by
  rw [Read_fst, Read_fst, h]

/-- C5: if Close succeeds, the on-disk length is at least the size cursor
before the call; a new Store over that file starts with the old size, and
everything the old store could Read is still readable at its position. -/
theorem C5_close_reopen (s : store) (disk : List Nat)
    (hwf : s.fileSize = s.file.length + s.buffer.length)
    (hclose : s.Close true true = .ok disk) :
    s.fileSize ≤ disk.length ∧
    ∃ s2, newStore disk true = .ok s2 ∧ s2.fileSize = s.fileSize ∧
      ∀ pos d, (s.Read pos true).1 = .ok d → (s2.Read pos true).1 = .ok d := by
  have hrfl : s.Close true true = .ok (s.file ++ s.buffer) := rfl
  rw [hrfl] at hclose
  have hdisk : disk = s.file ++ s.buffer := (Except.ok.injEq _ _ ▸ hclose).symm
  have hlen : disk.length = s.fileSize := by
    rw [hdisk, List.length_append, hwf]
  refine ⟨le_of_eq hlen.symm, ?_⟩
  refine ⟨{ file := disk, buffer := [], fileSize := disk.length }, rfl, hlen, ?_⟩
  intro pos d h
  rw [← Read_content_fst s { file := disk, buffer := [], fileSize := disk.length }
        pos (by rw [hdisk]; simp)]
  exact h

theorem C5_witness : ∃ s2,
    newStore (encodeRecord [3]) true = .ok s2 ∧ s2.fileSize = 9 ∧
      (s2.Read 0 true).1 = .ok [3] := by
  have h := C5_close_reopen
    { file := [], buffer := encodeRecord [3], fileSize := 9 }
    (encodeRecord [3]) (by decide) (by rfl)
  obtain ⟨hle, s2, hnew, hsize, hread⟩ := h
  exact ⟨s2, hnew, hsize, hread 0 [3] (by rfl)⟩

theorem expectedResults_map_fst_sum (ds : List (List Nat)) : ∀ base : Nat,
    ((expectedResults base ds).map Prod.fst).sum = sumBytes ds := by
  induction ds with
  | nil => intro base; rfl
  | cons d rest ih =>
    intro base
    simp only [expectedResults, List.map_cons, List.sum_cons, ih, sumBytes_cons]
    omega

theorem sumBytes_get_le (ds : List (List Nat)) (i : Nat) (hd : i < ds.length) :
    8 + (ds.get ⟨i, hd⟩).length ≤ sumBytes ds := by
  obtain ⟨rest, hsplit⟩ := encodeAll_split ds i hd
  have := congrArg List.length hsplit
  rw [encodeAll_length] at this
  simp only [List.length_append, encodeRecord_length] at this
  omega

/-- C8: appends serialized by the store's mutex (any grant order ds)
leave the final cursor equal to the initial cursor plus the sum of all
returned bytesWritten values, and each payload is afterwards readable at
its returned position. -/
theorem C8_concurrent_append_integrity (s : store) (ds : List (List Nat))
    (hwf : s.fileSize = s.file.length + s.buffer.length)
    (hov : s.fileSize + sumBytes ds < u64Mod) :
    (appendSeq s ds).2.fileSize
        = s.fileSize + ((appendSeq s ds).1.map Prod.fst).sum ∧
    ∀ i, (hd : i < ds.length) →
      ∃ w p, (appendSeq s ds).1[i]? = some (w, p) ∧
        ((appendSeq s ds).2.Read p true).1 = .ok (ds.get ⟨i, hd⟩) := by
  have hseq := appendSeq_spec ds s hov
  constructor
  · rw [hseq]
    simp only
    rw [expectedResults_map_fst_sum]
  · intro i hd
    refine ⟨(ds.get ⟨i, hd⟩).length + 8, s.fileSize + sumBytes (ds.take i), ?_, ?_⟩
    · rw [hseq]
      simp only
      have hi' : i < (expectedResults s.fileSize ds).length := by
        rw [expectedResults_length]; exact hd
      rw [List.getElem?_eq_getElem hi']
      exact congrArg some
        ((List.get_eq_getElem (expectedResults s.fileSize ds) ⟨i, hi'⟩).symm.trans
          (expectedResults_get ds s.fileSize i hi' hd))
    · rw [hseq]
      simp only
      obtain ⟨rest, hsplit⟩ := encodeAll_split ds i hd
      have hlt : (ds.get ⟨i, hd⟩).length < u64Mod := by
        have h1 := sumBytes_get_le ds i hd
        simp only [u64Mod] at hov ⊢
        omega
      have hread := read_of_record_at
        { file := s.file, buffer := s.buffer ++ encodeAll ds,
          fileSize := s.fileSize + sumBytes ds }
        ((s.file ++ s.buffer) ++ encodeAll (ds.take i)) rest (ds.get ⟨i, hd⟩)
        (by simp only [hsplit, List.append_assoc]) hlt
      have hplen : ((s.file ++ s.buffer) ++ encodeAll (ds.take i)).length
          = s.fileSize + sumBytes (ds.take i) := by
        simp only [List.length_append, encodeAll_length]
        omega
      rwa [hplen] at hread

theorem C8_witness :
    (appendSeq emptyStore [[1], [2]]).2.fileSize
        = emptyStore.fileSize + ((appendSeq emptyStore [[1], [2]]).1.map Prod.fst).sum ∧
    ∃ w p, (appendSeq emptyStore [[1], [2]]).1[0]? = some (w, p) ∧
      ((appendSeq emptyStore [[1], [2]]).2.Read p true).1 = .ok [1] := by
  have h := C8_concurrent_append_integrity emptyStore [[1], [2]]
    (by decide) (by decide)
  exact ⟨h.1, h.2 0 (by decide)⟩

end Proglog
